import Mathlib

/-!
Verification of `findLongest.cpp` (longest word made of other words).

The program reads a word list, normalizes each line, stores the distinct
words in a hashed set together with a length-indexed map of buckets, and
scans the buckets from the longest length down, testing each word with a
greedy shrink-and-recurse decomposition search.

Shallow embedding conventions:
* `std::string` becomes `Word := List Char`.
* The `unordered_set<string>` is modelled by the list of its distinct
  members in insertion order; the membership test `count(w) > 0` becomes
  list membership.
* The `unordered_map<size_t, vector<string*>>` is modelled by an
  association list from length to bucket (the buckets hold the words
  themselves; the C++ pointers always point into the member set).
* `std::sort` becomes `List.insertionSort` (a permutation that sorts,
  which is all the source relies on).
-/

/-- Words are sequences of characters (`std::string`). -/
abbrev Word : Type := List Char

/-- `toLowerString` (findLongest.cpp:132): lowercases every character
(`std::tolower` applied across the string; ASCII folding). The empty-string
early return is behaviourally the identity, as here. -/
def toLowerString (s : Word) : Word :=
  s.map Char.toLower

/-- `trimEndOfLine` (findLongest.cpp:142): pops the last character while it
is `'\n'` or `'\r'`, i.e. removes the maximal trailing run of end-of-line
characters. -/
def trimEndOfLine (s : Word) : Word :=
  (s.reverse.dropWhile (fun c => c = '\n' ∨ c = '\r')).reverse

/-- `trimLeadingWhitespace` (findLongest.cpp:157): finds the last index of
the leading run of spaces and erases positions `0 .. end`, i.e. removes the
maximal leading run of spaces. -/
def trimLeadingWhitespace (s : Word) : Word :=
  s.dropWhile (fun c => c = ' ')

/-- `trimTrailingWhitespace` (findLongest.cpp:179): finds the first index
`end` of the trailing run of spaces and calls `replace(end, slen - 1, "")`.
When `end ≥ 1` this erases exactly the trailing run; in the corner case
where the whole string is spaces (`end = 0`) it erases only `slen - 1`
characters and leaves one space behind. -/
def trimTrailingWhitespace (s : Word) : Word :=
  let r := (s.reverse.takeWhile (fun c => c = ' ')).length
  if r = 0 then s
  else if r = s.length then s.drop (s.length - 1)
  else s.take (s.length - r)

/-- `cleanWord` (findLongest.cpp:201): end-of-line trim, then leading and
trailing space trims, then lowercasing. -/
def cleanWord (s : Word) : Word :=
  toLowerString (trimTrailingWhitespace (trimLeadingWhitespace (trimEndOfLine s)))

/-- `wordIsMadeOfOtherWords` (findLongest.cpp:247): the loop runs the
primary-substring length `sublen` from `length - 1` down to `1` (the
reversed range below, with `sublen = k + 1`); for each it tests the prefix
against the set, then the full remaining suffix, and otherwise recurses on
the suffix.  The loop exits with `false` when `sublen` reaches `0`. -/
def wordIsMadeOfOtherWords (word : Word) (stringSet : List Word) : Bool :=
  ((List.range (word.length - 1)).reverse.attach).any (fun k =>
    decide (word.take (k.1 + 1) ∈ stringSet) &&
      (decide (word.drop (k.1 + 1) ∈ stringSet) ||
        wordIsMadeOfOtherWords (word.drop (k.1 + 1)) stringSet))
termination_by word.length
decreasing_by
  have hk := k.2
  simp only [List.mem_reverse, List.mem_range] at hk
  simp only [List.length_drop]
  omega

/-- Gas-instrumented loop of `wordIsMadeOfOtherWords`: `ks` is the list of
remaining candidate indices (`sublen = k + 1`), and `recFn` stands for the
recursive call made on the remaining suffix.  Mirrors findLongest.cpp:252-272
step for step; used to express the termination/depth bound of the engine. -/
def wimowLoopGas (recFn : Word → List Word → Option Bool) (word : Word)
    (stringSet : List Word) : List Nat → Option Bool
  | [] => some false
  | k :: ks =>
    if word.take (k + 1) ∈ stringSet then
      if word.drop (k + 1) ∈ stringSet then some true
      else
        match recFn (word.drop (k + 1)) stringSet with
        | none => none
        | some true => some true
        | some false => wimowLoopGas recFn word stringSet ks
    else wimowLoopGas recFn word stringSet ks

/-- Gas-instrumented `wordIsMadeOfOtherWords`: each level of recursion on a
remaining suffix consumes one unit of gas; `none` means the gas bound was
hit.  `wimowGas (word.length + 1)` never runs out (the recursion depth is
bounded by the word length, every recursive call being on a strictly
shorter suffix). -/
def wimowGas : Nat → Word → List Word → Option Bool
  | 0, _, _ => none
  | g + 1, word, stringSet =>
    wimowLoopGas (wimowGas g) word stringSet ((List.range (word.length - 1)).reverse)

/-- The Word Store (findLongest.cpp:103-104): the `unordered_set` of member
words (`stringSet`, in insertion order) and the `unordered_map` from length
to the bucket of words of that length (`sizeHash`, an association list;
buckets grow by `push_back`). -/
structure FLStore where
  stringSet : List Word
  sizeHash : List (Nat × List Word)
deriving DecidableEq

/-- Adding a word to the bucket for key `k` in the length map
(`(**sizeHash)[lineLen].push_back(...)`, findLongest.cpp:390): appends to
the existing bucket, or creates a fresh bucket when the key is new. -/
def bucketAdd (h : List (Nat × List Word)) (k : Nat) (w : Word) :
    List (Nat × List Word) :=
  match h with
  | [] => [(k, [w])]
  | (k', ws) :: t => if k' = k then (k', ws ++ [w]) :: t else (k', ws) :: bucketAdd t k w

/-- One iteration of the read loop of `hashStringFile`
(findLongest.cpp:382-397): clean the line; skip it if empty; otherwise
insert it into the set.  A duplicate makes `insert` report failure
(`insertResult.second == false`), which the source treats as an error and
propagates as early termination (`return false`), modelled by `none`. -/
def hashLine (st : FLStore) (line : Word) : Option FLStore :=
  let w := cleanWord line
  if w.length = 0 then some st
  else if w ∈ st.stringSet then none
  else some { stringSet := st.stringSet ++ [w],
              sizeHash := bucketAdd st.sizeHash w.length w }

/-- The read loop of `hashStringFile` over the remaining lines, threading
the store and stopping at the first failed insertion. -/
def hashLines : FLStore → List Word → Option FLStore
  | st, [] => some st
  | st, line :: rest =>
    match hashLine st line with
    | none => none
    | some st' => hashLines st' rest

/-- `hashStringFile` (findLongest.cpp:372): builds the store from the lines
of the input file, starting from a fresh empty set and map.  `none` models
the `false` return (a failed set insertion); file-open failure exits the
process before this loop and is outside the model. -/
def hashStringFile (lines : List Word) : Option FLStore :=
  hashLines { stringSet := [], sizeHash := [] } lines

/-- `sizeHashSortFunction` (findLongest.cpp:286): `strcmp(a, b) < 0`,
byte-wise lexicographic comparison of the two strings. -/
def sizeHashSortFunction : Word → Word → Bool
  | [], [] => false
  | [], _ :: _ => true
  | _ :: _, [] => false
  | a :: as, b :: bs =>
    if a < b then true else if b < a then false else sizeHashSortFunction as bs

/-- `extractAndSortKeysFromSizeHash` (findLongest.cpp:301): collects the
keys of the length map and sorts them ascending; when the pre-sort option
is on it also sorts each bucket with `sizeHashSortFunction`.  Returns the
sorted key vector together with the (possibly bucket-sorted) map. -/
def extractAndSortKeysFromSizeHash (doPreSort : Bool)
    (sizeHash : List (Nat × List Word)) : List Nat × List (Nat × List Word) :=
  let sortedHash :=
    if doPreSort then
      sizeHash.map (fun kv =>
        (kv.1, List.insertionSort (fun a b => sizeHashSortFunction a b = true) kv.2))
    else sizeHash
  (List.insertionSort (fun a b => a ≤ b) (sizeHash.map Prod.fst), sortedHash)

/-- Bucket lookup `(*sizeHash)[key]` (findLongest.cpp:336) for a key that
is present in the map; missing keys give the empty bucket. -/
def lookupBucket (h : List (Nat × List Word)) (k : Nat) : List Word :=
  match h with
  | [] => []
  | (k', ws) :: t => if k' = k then ws else lookupBucket t k

/-- The mutable locals of `findLongestWordsOfWords`
(findLongest.cpp:327-329). -/
structure ScanState where
  countFound : Nat
  firstWord : Word
  secondWord : Word
  firstFound : Bool
  secondFound : Bool
deriving DecidableEq

/-- The body of the scan loop of `findLongestWordsOfWords`
(findLongest.cpp:343-355) for one visited word. -/
def scanStep (stringSet : List Word) (st : ScanState) (w : Word) : ScanState :=
  if wordIsMadeOfOtherWords w stringSet then
    let st1 := { st with countFound := st.countFound + 1 }
    if st1.secondFound then st1
    else if st1.firstFound then { st1 with secondWord := w, secondFound := true }
    else { st1 with firstWord := w, firstFound := true }
  else st

/-- The order in which `findLongestWordsOfWords` visits words
(findLongest.cpp:335-340): key vector indices from the back (descending
sorted keys), and within each key the bucket in its established order. -/
def traversalOrder (doPreSort : Bool) (sizeHash : List (Nat × List Word)) :
    List Word :=
  let ex := extractAndSortKeysFromSizeHash doPreSort sizeHash
  ex.1.reverse.flatMap (lookupBucket ex.2)

/-- `findLongestWordsOfWords` (findLongest.cpp:326): resets the result
words to empty, scans every word in traversal order, and returns the count
together with the first and second matching words found. -/
def findLongestWordsOfWords (doPreSort : Bool) (stringSet : List Word)
    (sizeHash : List (Nat × List Word)) : Nat × Word × Word :=
  let final := (traversalOrder doPreSort sizeHash).foldl (scanStep stringSet)
    { countFound := 0, firstWord := [], secondWord := [],
      firstFound := false, secondFound := false }
  (final.countFound, final.firstWord, final.secondWord)

/-- Reference definition following the spec's words (section 4.2): the word
is a concatenation of two or more words, each a member of the store and
strictly shorter than the word itself. -/
def DecomposableSpec (word : Word) (stringSet : List Word) : Prop :=
  ∃ parts : List Word, 2 ≤ parts.length ∧
    (∀ p ∈ parts, p ∈ stringSet ∧ p.length < word.length) ∧
    parts.flatten = word

/-- Intermediate form of the reference definition: the pieces are required
to be non-empty instead of strictly shorter. -/
def NonemptyDecomp (word : Word) (stringSet : List Word) : Prop :=
  ∃ parts : List Word, 2 ≤ parts.length ∧
    (∀ p ∈ parts, p ∈ stringSet ∧ p ≠ []) ∧
    parts.flatten = word

theorem wimow_iff (word : Word) (stringSet : List Word) :
    wordIsMadeOfOtherWords word stringSet = true ↔
      ∃ k : Nat, k + 1 < word.length ∧ word.take (k + 1) ∈ stringSet ∧
        (word.drop (k + 1) ∈ stringSet ∨
          wordIsMadeOfOtherWords (word.drop (k + 1)) stringSet = true) := by
  conv_lhs => rw [wordIsMadeOfOtherWords]
  simp only [List.any_eq_true, List.mem_attach, true_and, Subtype.exists,
    List.mem_reverse, List.mem_range, Bool.and_eq_true, Bool.or_eq_true,
    decide_eq_true_eq, exists_prop]
  constructor
  · rintro ⟨k, hk, h1, h2⟩
    exact ⟨k, by omega, h1, h2⟩
  · rintro ⟨k, hk, h1, h2⟩
    exact ⟨k, by omega, h1, h2⟩

theorem wimow_iff_nonemptyDecomp (stringSet : List Word) (word : Word) :
    wordIsMadeOfOtherWords word stringSet = true ↔ NonemptyDecomp word stringSet := by
  have main : ∀ n (word : Word), word.length ≤ n →
      (wordIsMadeOfOtherWords word stringSet = true ↔ NonemptyDecomp word stringSet) := by
    intro n
    induction n with
    | zero =>
      intro word hw
      have hnil : word = [] := List.eq_nil_of_length_eq_zero (Nat.le_zero.mp hw)
      subst hnil
      constructor
      · intro h
        rcases (wimow_iff [] stringSet).mp h with ⟨k, hk, -, -⟩
        simp at hk
      · rintro ⟨parts, h2, h3, h4⟩
        rcases parts with - | ⟨p, rest⟩
        · simp at h2
        · have hp := h3 p (by simp)
          have hnil2 : p ++ rest.flatten = ([] : Word) := by
            simpa [List.flatten_cons] using h4
          exact (hp.2 (List.append_eq_nil.mp hnil2).1).elim
    | succ n ih =>
      intro word hw
      constructor
      · intro h
        rcases (wimow_iff word stringSet).mp h with ⟨k, hk, hpart, hrem | hrec⟩
        · refine ⟨[word.take (k + 1), word.drop (k + 1)], by simp, ?_, ?_⟩
          · intro p hp
            have htk : word.take (k + 1) ≠ [] := by
              apply List.length_pos.mp
              rw [List.length_take]
              omega
            have hdr : word.drop (k + 1) ≠ [] := by
              apply List.length_pos.mp
              rw [List.length_drop]
              omega
            simp only [List.mem_cons, List.not_mem_nil, or_false] at hp
            rcases hp with hp | hp
            · exact hp ▸ ⟨hpart, htk⟩
            · exact hp ▸ ⟨hrem, hdr⟩
          · simp [List.flatten_cons, List.take_append_drop]
        · have hlen : (word.drop (k + 1)).length ≤ n := by
            rw [List.length_drop]
            omega
          rcases (ih _ hlen).mp hrec with ⟨parts, h2, h3, h4⟩
          refine ⟨word.take (k + 1) :: parts, by simp; omega, ?_, ?_⟩
          · intro p hp
            rcases List.mem_cons.mp hp with hp | hp
            · have htk : word.take (k + 1) ≠ [] := by
                apply List.length_pos.mp
                rw [List.length_take]
                omega
              exact hp ▸ ⟨hpart, htk⟩
            · exact h3 p hp
          · simp [List.flatten_cons, h4, List.take_append_drop]
      · rintro ⟨parts, h2, h3, h4⟩
        rcases parts with - | ⟨p1, parts'⟩
        · simp at h2
        rcases parts' with - | ⟨p2, rest⟩
        · simp at h2
        have hp1 := h3 p1 (by simp)
        have hp2 := h3 p2 (by simp)
        have hlen1 : 1 ≤ p1.length := List.length_pos.mpr hp1.2
        have hlen2 : 1 ≤ p2.length := List.length_pos.mpr hp2.2
        apply (wimow_iff word stringSet).mpr
        rcases rest with - | ⟨q, rest'⟩
        · -- exactly two pieces: word = p1 ++ p2
          have hword : p1 ++ p2 = word := by
            simpa [List.flatten_cons] using h4
          have htake : word.take p1.length = p1 := by
            rw [← hword]; exact List.take_left _ _
          have hdrop : word.drop p1.length = p2 := by
            rw [← hword]; exact List.drop_left _ _
          have hbound : p1.length + 1 ≤ word.length := by
            rw [← hword, List.length_append]; omega
          have hk1 : p1.length - 1 + 1 = p1.length := by omega
          refine ⟨p1.length - 1, by omega, ?_, ?_⟩
          · rw [hk1, htake]; exact hp1.1
          · rw [hk1, hdrop]; exact Or.inl hp2.1
        · -- at least three pieces: recurse on the flattened tail
          have hword : p1 ++ (p2 :: q :: rest').flatten = word := by
            simpa [List.flatten_cons] using h4
          have htail : 1 ≤ ((p2 :: q :: rest') : List Word).flatten.length := by
            rw [List.flatten_cons, List.length_append]; omega
          have htake : word.take p1.length = p1 := by
            rw [← hword]; exact List.take_left _ _
          have hdrop : word.drop p1.length = (p2 :: q :: rest').flatten := by
            rw [← hword]; exact List.drop_left _ _
          have hbound : p1.length + 1 ≤ word.length := by
            rw [← hword, List.length_append]; omega
          have hk1 : p1.length - 1 + 1 = p1.length := by omega
          refine ⟨p1.length - 1, by omega, ?_, Or.inr ?_⟩
          · rw [hk1, htake]; exact hp1.1
          · rw [hk1, hdrop]
            have hlen : ((p2 :: q :: rest') : List Word).flatten.length ≤ n := by
              have : word.length = p1.length + ((p2 :: q :: rest') : List Word).flatten.length := by
                rw [← hword, List.length_append]
              omega
            apply (ih _ hlen).mpr
            exact ⟨p2 :: q :: rest', by simp, fun p hp => h3 p (List.mem_cons_of_mem _ hp), rfl⟩
  exact main word.length word le_rfl

theorem nonemptyDecomp_iff_decomposableSpec (word : Word) (stringSet : List Word) :
    NonemptyDecomp word stringSet ↔ DecomposableSpec word stringSet := by
  constructor
  · rintro ⟨parts, h2, h3, h4⟩
    refine ⟨parts, h2, ?_, h4⟩
    intro p hp
    refine ⟨(h3 p hp).1, ?_⟩
    rcases List.append_of_mem hp with ⟨s, t, rfl⟩
    have hw : word.length = s.flatten.length + (p.length + t.flatten.length) := by
      rw [← h4, List.flatten_append, List.flatten_cons]
      simp [List.length_append]
    have hst : 1 ≤ s.flatten.length + t.flatten.length := by
      rcases s with - | ⟨a, s'⟩
      · rcases t with - | ⟨b, t'⟩
        · simp at h2
        · have hb := h3 b (by simp)
          have hb1 : 1 ≤ b.length := List.length_pos.mpr hb.2
          rw [List.flatten_cons, List.length_append]
          omega
      · have ha := h3 a (by simp)
        have ha1 : 1 ≤ a.length := List.length_pos.mpr ha.2
        rw [List.flatten_cons, List.length_append]
        omega
    omega
  · rintro ⟨parts, h2, h3, h4⟩
    have hflat : (parts.filter (fun p => !p.isEmpty)).flatten = parts.flatten :=
      List.flatten_filter_not_isEmpty
    refine ⟨parts.filter (fun p => !p.isEmpty), ?_, ?_, by rw [hflat, h4]⟩
    · rcases hfil : parts.filter (fun p => !p.isEmpty) with - | ⟨q, qs⟩
      · exfalso
        have hw : word = [] := by
          rw [← h4, ← hflat, hfil, List.flatten_nil]
        rcases parts with - | ⟨pp, restp⟩
        · simp at h2
        · have hpp := (h3 pp (by simp)).2
          rw [hw] at hpp
          simp at hpp
      · rcases qs with - | ⟨q2, r⟩
        · exfalso
          have hq : q ∈ parts.filter (fun p => !p.isEmpty) := by
            rw [hfil]; simp
          have hq' := (List.mem_filter.mp hq).1
          have hw : word = q := by
            rw [← h4, ← hflat, hfil, List.flatten_cons, List.flatten_nil,
              List.append_nil]
          have hlt := (h3 q hq').2
          rw [hw] at hlt
          omega
        · simp [hfil]
    · intro p hp
      have hmem := List.mem_filter.mp hp
      refine ⟨(h3 p hmem.1).1, ?_⟩
      simpa [List.isEmpty_iff] using hmem.2

theorem wimow_iff_decomposableSpec (word : Word) (stringSet : List Word) :
    wordIsMadeOfOtherWords word stringSet = true ↔ DecomposableSpec word stringSet :=
  (wimow_iff_nonemptyDecomp stringSet word).trans
    (nonemptyDecomp_iff_decomposableSpec word stringSet)

theorem wimow_congr_mem {s1 s2 : List Word} (h : ∀ x : Word, x ∈ s1 ↔ x ∈ s2)
    (word : Word) :
    wordIsMadeOfOtherWords word s1 = wordIsMadeOfOtherWords word s2 := by
  rw [Bool.eq_iff_iff, wimow_iff_decomposableSpec, wimow_iff_decomposableSpec]
  constructor
  · rintro ⟨parts, h2, h3, h4⟩
    exact ⟨parts, h2, fun p hp => ⟨(h p).mp (h3 p hp).1, (h3 p hp).2⟩, h4⟩
  · rintro ⟨parts, h2, h3, h4⟩
    exact ⟨parts, h2, fun p hp => ⟨(h p).mpr (h3 p hp).1, (h3 p hp).2⟩, h4⟩

theorem wimow_self_mem (w : Word) (S : List Word) :
    wordIsMadeOfOtherWords w (w :: S) = wordIsMadeOfOtherWords w S := by
  rw [Bool.eq_iff_iff, wimow_iff_decomposableSpec, wimow_iff_decomposableSpec]
  constructor
  · rintro ⟨parts, h2, h3, h4⟩
    refine ⟨parts, h2, fun p hp => ?_, h4⟩
    rcases List.mem_cons.mp (h3 p hp).1 with heq | hmem
    · exact absurd (heq ▸ (h3 p hp).2) (lt_irrefl _)
    · exact ⟨hmem, (h3 p hp).2⟩
  · rintro ⟨parts, h2, h3, h4⟩
    exact ⟨parts, h2,
      fun p hp => ⟨List.mem_cons_of_mem _ (h3 p hp).1, (h3 p hp).2⟩, h4⟩

theorem wimow_nil_set (w : Word) : wordIsMadeOfOtherWords w [] = false := by
  cases h : wordIsMadeOfOtherWords w [] with
  | false => rfl
  | true =>
    rcases (wimow_iff_decomposableSpec w []).mp h with ⟨parts, h2, h3, h4⟩
    rcases parts with - | ⟨p, rest⟩
    · simp at h2
    · exact absurd (h3 p (by simp)).1 (List.not_mem_nil p)

theorem attach_any_eq {α : Type} (l : List α) (f : α → Bool) :
    l.attach.any (fun x => f x.1) = l.any f := by
  rw [Bool.eq_iff_iff]
  simp [List.any_eq_true]

theorem wimowLoopGas_eq (recFn : Word → List Word → Option Bool) (word : Word)
    (stringSet : List Word) (ks : List Nat)
    (h : ∀ k ∈ ks, recFn (word.drop (k + 1)) stringSet =
      some (wordIsMadeOfOtherWords (word.drop (k + 1)) stringSet)) :
    wimowLoopGas recFn word stringSet ks =
      some (ks.any (fun k => decide (word.take (k + 1) ∈ stringSet) &&
        (decide (word.drop (k + 1) ∈ stringSet) ||
          wordIsMadeOfOtherWords (word.drop (k + 1)) stringSet))) := by
  induction ks with
  | nil => rfl
  | cons k ks ih =>
    have hk := h k (by simp)
    have hrest : ∀ k' ∈ ks, recFn (word.drop (k' + 1)) stringSet =
        some (wordIsMadeOfOtherWords (word.drop (k' + 1)) stringSet) :=
      fun k' hk' => h k' (by simp [hk'])
    simp only [wimowLoopGas, List.any_cons]
    by_cases h1 : word.take (k + 1) ∈ stringSet
    · by_cases h2 : word.drop (k + 1) ∈ stringSet
      · simp [h1, h2]
      · rw [if_pos h1, if_neg h2, hk]
        cases halg : wordIsMadeOfOtherWords (word.drop (k + 1)) stringSet
        · rw [ih hrest]
          simp [h1, h2, halg]
        · simp [h1, h2, halg]
    · rw [if_neg h1, ih hrest]
      simp [h1]

theorem wimowGas_eq (g : Nat) : ∀ (word : Word) (stringSet : List Word),
    word.length < g →
    wimowGas g word stringSet = some (wordIsMadeOfOtherWords word stringSet) := by
  induction g with
  | zero => exact fun word set h => absurd h (Nat.not_lt_zero _)
  | succ g ih =>
    intro word stringSet hlen
    show wimowLoopGas (wimowGas g) word stringSet
      ((List.range (word.length - 1)).reverse) = _
    rw [wimowLoopGas_eq]
    · have halg : wordIsMadeOfOtherWords word stringSet =
          ((List.range (word.length - 1)).reverse).any
            (fun k => decide (word.take (k + 1) ∈ stringSet) &&
              (decide (word.drop (k + 1) ∈ stringSet) ||
                wordIsMadeOfOtherWords (word.drop (k + 1)) stringSet)) := by
        conv_lhs => rw [wordIsMadeOfOtherWords]
        exact attach_any_eq ((List.range (word.length - 1)).reverse)
          (fun k => decide (word.take (k + 1) ∈ stringSet) &&
            (decide (word.drop (k + 1) ∈ stringSet) ||
              wordIsMadeOfOtherWords (word.drop (k + 1)) stringSet))
      rw [halg]
    · intro k hkmem
      simp only [List.mem_reverse, List.mem_range] at hkmem
      apply ih
      rw [List.length_drop]
      omega

/-- The effect of the scan loop body on a word that does decompose (the
branch guarded by `wordIsMadeOfOtherWords` in findLongest.cpp:343-355). -/
def matchStep (st : ScanState) (w : Word) : ScanState :=
  let st1 := { st with countFound := st.countFound + 1 }
  if st1.secondFound then st1
  else if st1.firstFound then { st1 with secondWord := w, secondFound := true }
  else { st1 with firstWord := w, firstFound := true }

theorem scanStep_eq (stringSet : List Word) (st : ScanState) (w : Word) :
    scanStep stringSet st w =
      if wordIsMadeOfOtherWords w stringSet then matchStep st w else st := rfl

theorem scan_foldl_filter (stringSet : List Word) (l : List Word) :
    ∀ st : ScanState,
      l.foldl (scanStep stringSet) st =
        (l.filter (fun w => wordIsMadeOfOtherWords w stringSet)).foldl matchStep st := by
  induction l with
  | nil => intro st; rfl
  | cons w l ih =>
    intro st
    by_cases h : wordIsMadeOfOtherWords w stringSet
    · simp only [List.foldl_cons, List.filter_cons, h, if_pos, scanStep_eq, ih]
    · simp only [List.foldl_cons, List.filter_cons, scanStep_eq, ih,
        Bool.not_eq_true] at h ⊢
      rw [h]
      simp only [Bool.false_eq_true, if_false]

theorem foldl_matchStep_saturated (m : List Word) : ∀ st : ScanState,
    st.secondFound = true →
    m.foldl matchStep st = { st with countFound := st.countFound + m.length } := by
  induction m with
  | nil =>
    rintro ⟨c, fw, sw, ff, sf⟩ h
    simp
  | cons w m ih =>
    rintro ⟨c, fw, sw, ff, sf⟩ h
    cases h
    rw [List.foldl_cons]
    have hstep : matchStep ⟨c, fw, sw, ff, true⟩ w = ⟨c + 1, fw, sw, ff, true⟩ := rfl
    rw [hstep, ih _ rfl]
    simp
    omega

theorem foldl_matchStep_count (m : List Word) : ∀ st : ScanState,
    (m.foldl matchStep st).countFound = st.countFound + m.length := by
  induction m with
  | nil => intro st; simp
  | cons w m ih =>
    rintro ⟨c, fw, sw, ff, sf⟩
    rw [List.foldl_cons, ih]
    have hc : (matchStep ⟨c, fw, sw, ff, sf⟩ w).countFound = c + 1 := by
      cases sf <;> cases ff <;> rfl
    rw [hc]
    simp
    omega

theorem flatMap_congr_on (h : List (Nat × List Word))
    {f g : Nat → List Word} (he : ∀ a ∈ h, f a.1 = g a.1) :
    (h.map Prod.fst).flatMap f = (h.map Prod.fst).flatMap g := by
  induction h with
  | nil => rfl
  | cons kv t ih =>
    simp only [List.map_cons, List.flatMap_cons, he kv (by simp),
      ih (fun a ha => he a (by simp [ha]))]

theorem lookupBucket_cons_ne (k' : Nat) (ws : List Word)
    (t : List (Nat × List Word)) {k : Nat} (h : k' ≠ k) :
    lookupBucket ((k', ws) :: t) k = lookupBucket t k := by
  simp [lookupBucket, h]

theorem lookupBucket_cons_self (k : Nat) (ws : List Word)
    (t : List (Nat × List Word)) :
    lookupBucket ((k, ws) :: t) k = ws := by
  simp [lookupBucket]

theorem flatMap_lookup_eq (h : List (Nat × List Word))
    (hnd : (h.map Prod.fst).Nodup) :
    (h.map Prod.fst).flatMap (lookupBucket h) = h.flatMap Prod.snd := by
  induction h with
  | nil => rfl
  | cons kv t ih =>
    obtain ⟨k, ws⟩ := kv
    have hk : k ∉ t.map Prod.fst := (List.nodup_cons.mp hnd).1
    have hnd' : (t.map Prod.fst).Nodup := (List.nodup_cons.mp hnd).2
    have hcongr : (t.map Prod.fst).flatMap (lookupBucket ((k, ws) :: t)) =
        (t.map Prod.fst).flatMap (lookupBucket t) := by
      apply flatMap_congr_on
      intro a ha
      apply lookupBucket_cons_ne
      intro hkk
      exact hk (hkk ▸ List.mem_map_of_mem Prod.fst ha)
    simp only [List.map_cons, List.flatMap_cons, lookupBucket_cons_self,
      hcongr, ih hnd']

theorem mem_lookupBucket (h : List (Nat × List Word)) (k : Nat) {x : Word}
    (hx : x ∈ lookupBucket h k) : ∃ kv ∈ h, x ∈ kv.2 := by
  induction h with
  | nil => simp [lookupBucket] at hx
  | cons kv t ih =>
    obtain ⟨k', ws⟩ := kv
    by_cases hkk : k' = k
    · subst hkk
      rw [lookupBucket_cons_self] at hx
      exact ⟨(k', ws), by simp, hx⟩
    · rw [lookupBucket_cons_ne _ _ _ hkk] at hx
      obtain ⟨kv', hkv', hxkv'⟩ := ih hx
      exact ⟨kv', by simp [hkv'], hxkv'⟩

theorem bucketAdd_flatMap (h : List (Nat × List Word)) (k : Nat) (w : Word) :
    ((bucketAdd h k w).flatMap Prod.snd).Perm (w :: h.flatMap Prod.snd) := by
  induction h with
  | nil => simp [bucketAdd]
  | cons kv t ih =>
    obtain ⟨k', ws⟩ := kv
    by_cases hkk : k' = k
    · simp only [bucketAdd, if_pos hkk, List.flatMap_cons]
      rw [List.append_assoc]
      exact List.perm_middle
    · simp only [bucketAdd, if_neg hkk, List.flatMap_cons]
      exact (ih.append_left ws).trans List.perm_middle

theorem bucketAdd_keys (h : List (Nat × List Word)) (k : Nat) (w : Word) :
    (bucketAdd h k w).map Prod.fst =
      if k ∈ h.map Prod.fst then h.map Prod.fst else h.map Prod.fst ++ [k] := by
  induction h with
  | nil => simp [bucketAdd]
  | cons kv t ih =>
    obtain ⟨k', ws⟩ := kv
    by_cases hkk : k' = k
    · subst hkk
      simp [bucketAdd]
    · simp only [bucketAdd, if_neg hkk, List.map_cons, ih, List.mem_cons]
      by_cases hmem : k ∈ t.map Prod.fst
      · simp [hmem, Ne.symm hkk]
      · simp [hmem, Ne.symm hkk]

theorem bucketAdd_mem (h : List (Nat × List Word)) (k : Nat) (w : Word)
    {kv : Nat × List Word} (hkv : kv ∈ bucketAdd h k w) {x : Word}
    (hx : x ∈ kv.2) :
    (∃ kv' ∈ h, kv'.1 = kv.1 ∧ x ∈ kv'.2) ∨ (x = w ∧ kv.1 = k) := by
  revert hkv
  induction h with
  | nil =>
    intro hkv
    simp only [bucketAdd, List.mem_singleton] at hkv
    subst hkv
    simp only [List.mem_singleton] at hx
    exact Or.inr ⟨hx, rfl⟩
  | cons kv0 t ih =>
    intro hkv
    obtain ⟨k', ws⟩ := kv0
    by_cases hkk : k' = k
    · subst hkk
      simp only [bucketAdd, if_pos] at hkv
      rw [List.mem_cons] at hkv
      rcases hkv with hkv | hkv
      · subst hkv
        simp only [List.mem_append, List.mem_singleton] at hx
        rcases hx with hx | hx
        · exact Or.inl ⟨(k', ws), by simp, rfl, hx⟩
        · exact Or.inr ⟨hx, rfl⟩
      · exact Or.inl ⟨kv, List.mem_cons_of_mem _ hkv, rfl, hx⟩
    · simp only [bucketAdd] at hkv
      rw [if_neg hkk, List.mem_cons] at hkv
      rcases hkv with hkv | hkv
      · subst hkv
        exact Or.inl ⟨(k', ws), by simp, rfl, hx⟩
      · rcases ih hkv with ⟨kv', hkv', hfst, hxkv'⟩ | hr
        · exact Or.inl ⟨kv', List.mem_cons_of_mem _ hkv', hfst, hxkv'⟩
        · exact Or.inr hr

/-- The invariant maintained by `hashStringFile` while building the store:
distinct bucket keys, every bucket holds words of exactly its key length,
the bucket contents are (as a multiset) exactly the member set, the member
set has no duplicates, and every member is non-empty. -/
def StoreInv (st : FLStore) : Prop :=
  (st.sizeHash.map Prod.fst).Nodup ∧
  (∀ kv ∈ st.sizeHash, ∀ x ∈ kv.2, x.length = kv.1) ∧
  (st.sizeHash.flatMap Prod.snd).Perm st.stringSet ∧
  st.stringSet.Nodup ∧
  (∀ x ∈ st.stringSet, x ≠ [])

theorem hashLine_inv {st st' : FLStore} (line : Word)
    (hinv : StoreInv st) (hstep : hashLine st line = some st') : StoreInv st' := by
  obtain ⟨hnd, hlen, hperm, hsnd, hne⟩ := hinv
  unfold hashLine at hstep
  by_cases h0 : (cleanWord line).length = 0
  · rw [if_pos h0] at hstep
    cases hstep
    exact ⟨hnd, hlen, hperm, hsnd, hne⟩
  · rw [if_neg h0] at hstep
    by_cases hdup : cleanWord line ∈ st.stringSet
    · rw [if_pos hdup] at hstep
      cases hstep
    · rw [if_neg hdup] at hstep
      cases hstep
      refine ⟨?_, ?_, ?_, ?_, ?_⟩
      · rw [bucketAdd_keys]
        by_cases hmem : (cleanWord line).length ∈ st.sizeHash.map Prod.fst
        · rwa [if_pos hmem]
        · rw [if_neg hmem, List.nodup_append]
          exact ⟨hnd, List.nodup_singleton _, by simpa using hmem⟩
      · intro kv hkv x hx
        rcases bucketAdd_mem _ _ _ hkv hx with ⟨kv', hkv', hfst, hxkv'⟩ | ⟨hxw, hk⟩
        · rw [← hfst]
          exact hlen kv' hkv' x hxkv'
        · rw [hxw, hk]
      · refine (bucketAdd_flatMap _ _ _).trans ?_
        refine (hperm.cons (cleanWord line)).trans ?_
        have := @List.perm_middle _ (cleanWord line) st.stringSet []
        simpa using this.symm
      · rw [List.nodup_append]
        exact ⟨hsnd, List.nodup_singleton _, by simpa using hdup⟩
      · intro x hx
        rcases List.mem_append.mp hx with hx | hx
        · exact hne x hx
        · rw [List.mem_singleton.mp hx]
          intro hnil
          exact h0 (by rw [hnil]; rfl)

theorem hashLines_inv : ∀ (lines : List Word) (st st' : FLStore),
    StoreInv st → hashLines st lines = some st' → StoreInv st' := by
  intro lines
  induction lines with
  | nil =>
    intro st st' hinv h
    cases h
    exact hinv
  | cons line rest ih =>
    intro st st' hinv h
    unfold hashLines at h
    cases hl : hashLine st line with
    | none => rw [hl] at h; cases h
    | some st1 =>
      rw [hl] at h
      exact ih st1 st' (hashLine_inv line hinv hl) h

theorem hashStringFile_inv {lines : List Word} {st : FLStore}
    (h : hashStringFile lines = some st) : StoreInv st :=
  hashLines_inv lines { stringSet := [], sizeHash := [] } st
    ⟨List.nodup_nil, by simp, by simp, List.nodup_nil, by simp⟩ h

theorem extract_keys_fst (b : Bool) (h : List (Nat × List Word)) :
    (extractAndSortKeysFromSizeHash b h).1 =
      List.insertionSort (fun a b => a ≤ b) (h.map Prod.fst) := rfl

theorem presortHash_keys (b : Bool) (h : List (Nat × List Word)) :
    (extractAndSortKeysFromSizeHash b h).2.map Prod.fst = h.map Prod.fst := by
  cases b
  · rfl
  · show (h.map _).map Prod.fst = h.map Prod.fst
    rw [List.map_map]
    rfl

theorem presortHash_flatMap_perm (b : Bool) (h : List (Nat × List Word)) :
    ((extractAndSortKeysFromSizeHash b h).2.flatMap Prod.snd).Perm
      (h.flatMap Prod.snd) := by
  cases b
  · exact List.Perm.refl _
  · show ((h.map _).flatMap Prod.snd).Perm _
    rw [List.flatMap_map]
    exact List.Perm.flatMap_left h (fun kv _ => List.perm_insertionSort _ _)

theorem keys_visited_perm (b : Bool) (h : List (Nat × List Word)) :
    ((extractAndSortKeysFromSizeHash b h).1.reverse).Perm (h.map Prod.fst) := by
  rw [extract_keys_fst]
  exact (List.reverse_perm _).trans (List.perm_insertionSort _ _)

theorem keys_visited_sorted_gt (b : Bool) (h : List (Nat × List Word))
    (hnd : (h.map Prod.fst).Nodup) :
    List.Sorted (fun a b => a > b)
      ((extractAndSortKeysFromSizeHash b h).1.reverse) := by
  rw [extract_keys_fst]
  have hs : List.Sorted (fun a b => a ≤ b)
      (List.insertionSort (fun a b => a ≤ b) (h.map Prod.fst)) :=
    List.sorted_insertionSort _ _
  have hn : (List.insertionSort (fun a b => a ≤ b) (h.map Prod.fst)).Nodup :=
    (List.perm_insertionSort _ _).nodup_iff.mpr hnd
  have hlt : List.Pairwise (fun a b => a < b)
      (List.insertionSort (fun a b => a ≤ b) (h.map Prod.fst)) :=
    (hs.and hn).imp (fun hab => lt_of_le_of_ne hab.1 hab.2)
  exact List.pairwise_reverse.mpr hlt

theorem traversalOrder_perm (b : Bool) (h : List (Nat × List Word))
    (hnd : (h.map Prod.fst).Nodup) :
    (traversalOrder b h).Perm (h.flatMap Prod.snd) := by
  have hkeys := presortHash_keys b h
  have hnd' : ((extractAndSortKeysFromSizeHash b h).2.map Prod.fst).Nodup := by
    rw [hkeys]; exact hnd
  have p1 : ((extractAndSortKeysFromSizeHash b h).1.reverse).Perm
      ((extractAndSortKeysFromSizeHash b h).2.map Prod.fst) := by
    rw [hkeys]
    exact keys_visited_perm b h
  show (((extractAndSortKeysFromSizeHash b h).1.reverse).flatMap
    (lookupBucket (extractAndSortKeysFromSizeHash b h).2)).Perm _
  refine ((p1.flatMap_right _).trans ?_)
  rw [flatMap_lookup_eq _ hnd']
  exact presortHash_flatMap_perm b h

theorem mem_traversalOrder (b : Bool) (h : List (Nat × List Word)) {x : Word}
    (hx : x ∈ traversalOrder b h) : ∃ kv ∈ h, x ∈ kv.2 := by
  have hx' : x ∈ (extractAndSortKeysFromSizeHash b h).2.flatMap Prod.snd := by
    have hmem := List.mem_flatMap.mp hx
    obtain ⟨k, -, hk2⟩ := hmem
    obtain ⟨kv, hkv, hxkv⟩ := mem_lookupBucket _ _ hk2
    exact List.mem_flatMap.mpr ⟨kv, hkv, hxkv⟩
  cases b
  · exact List.mem_flatMap.mp hx'
  · have := List.mem_flatMap.mp hx'
    obtain ⟨kv, hkv, hxkv⟩ := this
    simp only [extractAndSortKeysFromSizeHash, if_pos, List.mem_map] at hkv
    obtain ⟨kv0, hkv0, hkveq⟩ := hkv
    refine ⟨kv0, hkv0, ?_⟩
    rw [← hkveq] at hxkv
    simpa using
      (List.perm_insertionSort (fun a b => sizeHashSortFunction a b = true)
        kv0.2).mem_iff.mp (by simpa using hxkv)

/-- The result of `findLongestWordsOfWords` in terms of the words that
decompose, listed in traversal order: the count is their number, the first
and second result words are the first two of them (empty when absent). -/
theorem findLongest_eq (doPreSort : Bool) (stringSet : List Word)
    (sizeHash : List (Nat × List Word)) :
    findLongestWordsOfWords doPreSort stringSet sizeHash =
      (((traversalOrder doPreSort sizeHash).filter
          (fun w => wordIsMadeOfOtherWords w stringSet)).length,
       ((traversalOrder doPreSort sizeHash).filter
          (fun w => wordIsMadeOfOtherWords w stringSet)).headD [],
       (((traversalOrder doPreSort sizeHash).filter
          (fun w => wordIsMadeOfOtherWords w stringSet)).drop 1).headD []) := by
  show ((((traversalOrder doPreSort sizeHash).foldl (scanStep stringSet)
      { countFound := 0, firstWord := [], secondWord := [],
        firstFound := false, secondFound := false }).countFound, _, _) : Nat × Word × Word) = _
  rw [scan_foldl_filter]
  generalize (traversalOrder doPreSort sizeHash).filter
    (fun w => wordIsMadeOfOtherWords w stringSet) = M
  rcases M with - | ⟨a, M'⟩
  · rfl
  rcases M' with - | ⟨b, M''⟩
  · rfl
  · have hstep : matchStep (matchStep
        { countFound := 0, firstWord := [], secondWord := [],
          firstFound := false, secondFound := false } a) b =
        ⟨2, a, b, true, true⟩ := rfl
    rw [List.foldl_cons, List.foldl_cons, hstep, foldl_matchStep_saturated _ _ rfl]
    simp
    omega


theorem wimow_eval {word : Word} {stringSet : List Word} {b : Bool}
    (h : wimowGas (word.length + 1) word stringSet = some b) :
    wordIsMadeOfOtherWords word stringSet = b := by
  have h2 := wimowGas_eq (word.length + 1) word stringSet (Nat.lt_succ_self _)
  rw [h] at h2
  exact (Option.some.inj h2).symm

/-- C1: for every store and word, `wordIsMadeOfOtherWords` returns `true`
exactly when the word is a concatenation of two or more words, each a
member of the store and strictly shorter than the word.  Since the
right-hand side is an order-free existential, the boolean result does not
depend on the search order the greedy-shrink loop happens to use. -/
theorem claim_C1 (stringSet : List Word) (word : Word) :
    wordIsMadeOfOtherWords word stringSet = true ↔
      DecomposableSpec word stringSet :=
  wimow_iff_decomposableSpec word stringSet

/-- C2 (counterexample): an input file whose two lines normalize to the
same word does not yield a successfully built store — `hashStringFile`
aborts with failure on the duplicate insertion. -/
theorem claim_C2_cex :
    hashStringFile [['c', 'a', 't'], ['c', 'a', 't']] = none := by decide

/-- C2 (amended): inserting a word that is already present is reported as
not newly added, but `hashStringFile` treats exactly this duplicate as its
error condition: the read loop aborts and signals failure, so an input
file containing duplicate normalized words produces no store and no scan
result. -/
theorem claim_C2 (st : FLStore) (line : Word)
    (h0 : (cleanWord line).length ≠ 0)
    (hdup : cleanWord line ∈ st.stringSet) :
    hashLine st line = none := by
  unfold hashLine
  rw [if_neg h0, if_pos hdup]

theorem claim_C2_witness :
    hashLine { stringSet := [['c', 'a', 't']], sizeHash := [(3, [['c', 'a', 't']])] }
      ['c', 'a', 't'] = none :=
  claim_C2 { stringSet := [['c', 'a', 't']], sizeHash := [(3, [['c', 'a', 't']])] }
    ['c', 'a', 't'] (by decide) (by decide)

/-- C3: when the store's bucket keys are distinct, the scanner visits the
word lengths present in the store in strictly decreasing numeric order
(the visited key sequence is sorted by greater-than and is a permutation
of the store's keys), and the first and second reported words are exactly
the first and second decomposable words in traversal order — so among ties
at the maximal length the word earlier in that bucket wins the first
slot. -/
theorem claim_C3 (b : Bool) (stringSet : List Word)
    (h : List (Nat × List Word)) (hnd : (h.map Prod.fst).Nodup) :
    List.Sorted (fun x y => x > y)
      ((extractAndSortKeysFromSizeHash b h).1.reverse) ∧
    ((extractAndSortKeysFromSizeHash b h).1.reverse).Perm (h.map Prod.fst) ∧
    (findLongestWordsOfWords b stringSet h).2.1 =
      ((traversalOrder b h).filter
        (fun w => wordIsMadeOfOtherWords w stringSet)).headD [] ∧
    (findLongestWordsOfWords b stringSet h).2.2 =
      (((traversalOrder b h).filter
        (fun w => wordIsMadeOfOtherWords w stringSet)).drop 1).headD [] := by
  refine ⟨keys_visited_sorted_gt b h hnd, keys_visited_perm b h, ?_, ?_⟩
  · rw [findLongest_eq]
  · rw [findLongest_eq]

theorem claim_C3_witness :
    List.Sorted (fun x y => x > y)
      ((extractAndSortKeysFromSizeHash false [(1, [['a']])]).1.reverse) ∧
    ((extractAndSortKeysFromSizeHash false [(1, [['a']])]).1.reverse).Perm [1] ∧
    (findLongestWordsOfWords false [['a']] [(1, [['a']])]).2.1 =
      ((traversalOrder false [(1, [['a']])]).filter
        (fun w => wordIsMadeOfOtherWords w [['a']])).headD [] ∧
    (findLongestWordsOfWords false [['a']] [(1, [['a']])]).2.2 =
      (((traversalOrder false [(1, [['a']])]).filter
        (fun w => wordIsMadeOfOtherWords w [['a']])).drop 1).headD [] :=
  claim_C3 false [['a']] [(1, [['a']])] (by decide)

/-- C4: over a store built by `hashStringFile`, the scan visits every word
of every length bucket (the traversal is a permutation of the bucket
contents, which never stops early), and the returned count equals the
total number of member words that are decomposable. -/
theorem claim_C4 (lines : List Word) (st : FLStore)
    (h : hashStringFile lines = some st) (b : Bool) :
    (traversalOrder b st.sizeHash).Perm (st.sizeHash.flatMap Prod.snd) ∧
    (findLongestWordsOfWords b st.stringSet st.sizeHash).1 =
      (st.stringSet.filter
        (fun w => wordIsMadeOfOtherWords w st.stringSet)).length := by
  obtain ⟨hnd, hlen, hperm, hsnd, hne⟩ := hashStringFile_inv h
  have htrav := traversalOrder_perm b st.sizeHash hnd
  refine ⟨htrav, ?_⟩
  rw [findLongest_eq]
  exact ((htrav.trans hperm).filter _).length_eq

theorem claim_C4_witness :
    (traversalOrder false [(1, [['a']])]).Perm
      ([(1, [['a']])].flatMap Prod.snd) ∧
    (findLongestWordsOfWords false [['a']] [(1, [['a']])]).1 =
      ([['a']].filter (fun w => wordIsMadeOfOtherWords w [['a']])).length :=
  claim_C4 [['a']] { stringSet := [['a']], sizeHash := [(1, [['a']])] }
    (by decide) false

/-- C5: the decomposition engine terminates on every input: running it with
gas `length + 1` (one unit per level of recursion on a strictly shorter
suffix, each level trying the at most `length - 1` candidate split points)
never exhausts the gas and yields exactly the value of
`wordIsMadeOfOtherWords`. -/
theorem claim_C5 (word : Word) (stringSet : List Word) :
    wimowGas (word.length + 1) word stringSet =
      some (wordIsMadeOfOtherWords word stringSet) :=
  wimowGas_eq (word.length + 1) word stringSet (Nat.lt_succ_self _)

/-- C6: the engine never uses the full word or the empty word as a piece:
candidate split points range over proper non-empty divisions only, so
adding the word itself to the store does not change the verdict, and a
word over the singleton store holding only itself is never reported
decomposable. -/
theorem claim_C6 (w : Word) (S : List Word) :
    wordIsMadeOfOtherWords w (w :: S) = wordIsMadeOfOtherWords w S ∧
    wordIsMadeOfOtherWords w [w] = false := by
  refine ⟨wimow_self_mem w S, ?_⟩
  rw [wimow_self_mem w [], wimow_nil_set]

/-- C7: an empty input file is not an error — it builds the empty store —
and a scan over an empty store, or over any store none of whose bucket
words decompose, returns count zero with both reported words empty. -/
theorem claim_C7 :
    hashStringFile [] = some { stringSet := [], sizeHash := [] } ∧
    (∀ b : Bool, findLongestWordsOfWords b [] [] = (0, [], [])) ∧
    (∀ (b : Bool) (stringSet : List Word) (h : List (Nat × List Word)),
      (∀ kv ∈ h, ∀ w ∈ kv.2, wordIsMadeOfOtherWords w stringSet = false) →
      findLongestWordsOfWords b stringSet h = (0, [], [])) := by
  refine ⟨rfl, fun b => by cases b <;> rfl, ?_⟩
  intro b stringSet h hall
  rw [findLongest_eq]
  have hM : (traversalOrder b h).filter
      (fun w => wordIsMadeOfOtherWords w stringSet) = [] := by
    rw [List.filter_eq_nil_iff]
    intro w hw
    obtain ⟨kv, hkv, hwkv⟩ := mem_traversalOrder b h hw
    simp [hall kv hkv w hwkv]
  rw [hM]
  rfl

theorem claim_C7_witness :
    findLongestWordsOfWords false [] [(1, [['a']])] = (0, [], []) :=
  claim_C7.2.2 false [] [(1, [['a']])] (fun _ _ w _ => wimow_nil_set w)

/-- C8: after store construction from any input file, every word referenced
in a length bucket is a member of the set and every member appears in some
bucket; a word sits only in the bucket keyed by its own length, appears at
most once in its bucket, and the bucket keys are distinct. -/
theorem claim_C8 (lines : List Word) (st : FLStore)
    (h : hashStringFile lines = some st) :
    (∀ kv ∈ st.sizeHash, ∀ w ∈ kv.2, w ∈ st.stringSet) ∧
    (∀ w ∈ st.stringSet, ∃ kv ∈ st.sizeHash, w ∈ kv.2) ∧
    (∀ kv ∈ st.sizeHash, ∀ w ∈ kv.2, w.length = kv.1) ∧
    (∀ kv ∈ st.sizeHash, kv.2.Nodup) ∧
    (st.sizeHash.map Prod.fst).Nodup := by
  obtain ⟨hnd, hlen, hperm, hsnd, hne⟩ := hashStringFile_inv h
  refine ⟨?_, ?_, hlen, ?_, hnd⟩
  · intro kv hkv w hw
    exact hperm.mem_iff.mp (List.mem_flatMap.mpr ⟨kv, hkv, hw⟩)
  · intro w hw
    exact List.mem_flatMap.mp (hperm.mem_iff.mpr hw)
  · intro kv hkv
    have hflat : (st.sizeHash.flatMap Prod.snd).Nodup := hperm.nodup_iff.mpr hsnd
    have hsub : kv.2.Sublist (st.sizeHash.flatMap Prod.snd) := by
      have h1 : kv.2 ∈ st.sizeHash.map Prod.snd := List.mem_map_of_mem _ hkv
      have h2 := List.sublist_flatten_of_mem h1
      rwa [← List.flatMap_def] at h2
    exact hflat.sublist hsub

theorem claim_C8_witness :
    (∀ kv ∈ [(1, [['a']])], ∀ w ∈ kv.2, w ∈ [['a']]) ∧
    (∀ w ∈ [['a']], ∃ kv ∈ [(1, [['a']])], w ∈ kv.2) ∧
    (∀ kv ∈ [(1, [['a']])], ∀ w ∈ kv.2, w.length = kv.1) ∧
    (∀ kv ∈ ([(1, [['a']])] : List (Nat × List Word)), kv.2.Nodup) ∧
    (([(1, [['a']])] : List (Nat × List Word)).map Prod.fst).Nodup :=
  claim_C8 [['a']] { stringSet := [['a']], sizeHash := [(1, [['a']])] }
    (by decide)

/-- C9: the count returned by the scan does not depend on the pre-sort
option or on the ordering of words within or across buckets: for stores
with the same membership predicate and bucket contents equal up to
permutation, both scans count the same number of decomposable words. -/
theorem claim_C9 (b1 b2 : Bool) (s1 s2 : List Word)
    (h1 h2 : List (Nat × List Word))
    (hmem : ∀ x : Word, x ∈ s1 ↔ x ∈ s2)
    (hnd1 : (h1.map Prod.fst).Nodup) (hnd2 : (h2.map Prod.fst).Nodup)
    (hperm : (h1.flatMap Prod.snd).Perm (h2.flatMap Prod.snd)) :
    (findLongestWordsOfWords b1 s1 h1).1 =
      (findLongestWordsOfWords b2 s2 h2).1 := by
  rw [findLongest_eq, findLongest_eq]
  show ((traversalOrder b1 h1).filter
      (fun w => wordIsMadeOfOtherWords w s1)).length = _
  rw [List.filter_congr (fun w _ => wimow_congr_mem hmem w)]
  exact ((((traversalOrder_perm b1 h1 hnd1).trans hperm).trans
    (traversalOrder_perm b2 h2 hnd2).symm).filter _).length_eq

theorem claim_C9_witness :
    (findLongestWordsOfWords false [['a']] [(1, [['a']])]).1 =
      (findLongestWordsOfWords true [['a']] [(1, [['a']])]).1 :=
  claim_C9 false true [['a']] [['a']] [(1, [['a']])] [(1, [['a']])]
    (fun _ => Iff.rfl) (by decide) (by decide) (List.Perm.refl _)

/-- C10: over a store whose bucket words are all non-empty, the first
reported word is non-empty exactly when the count is at least one, and the
second exactly when the count is at least two. -/
theorem claim_C10 (b : Bool) (stringSet : List Word)
    (h : List (Nat × List Word))
    (hne : ∀ kv ∈ h, ∀ w ∈ kv.2, w ≠ []) :
    ((findLongestWordsOfWords b stringSet h).2.1 ≠ [] ↔
      1 ≤ (findLongestWordsOfWords b stringSet h).1) ∧
    ((findLongestWordsOfWords b stringSet h).2.2 ≠ [] ↔
      2 ≤ (findLongestWordsOfWords b stringSet h).1) := by
  rw [findLongest_eq]
  have hMne : ∀ w ∈ (traversalOrder b h).filter
      (fun w => wordIsMadeOfOtherWords w stringSet), w ≠ [] := by
    intro w hw
    obtain ⟨kv, hkv, hwkv⟩ := mem_traversalOrder b h (List.mem_of_mem_filter hw)
    exact hne kv hkv w hwkv
  generalize hMdef : (traversalOrder b h).filter
    (fun w => wordIsMadeOfOtherWords w stringSet) = M at hMne ⊢
  rcases M with - | ⟨a, M'⟩
  · simp
  rcases M' with - | ⟨c, M''⟩
  · have ha := hMne a (by simp)
    constructor
    · simp [ha]
    · simp
  · have ha := hMne a (by simp)
    have hc := hMne c (by simp)
    constructor
    · simp only [List.length_cons, List.headD_cons]
      constructor
      · intro _
        omega
      · intro _
        exact ha
    · simp only [List.length_cons, List.drop_succ_cons, List.drop_zero,
        List.headD_cons]
      constructor
      · intro _
        omega
      · intro _
        exact hc

theorem claim_C10_witness :
    ((findLongestWordsOfWords false [['a']] [(1, [['a']])]).2.1 ≠ [] ↔
      1 ≤ (findLongestWordsOfWords false [['a']] [(1, [['a']])]).1) ∧
    ((findLongestWordsOfWords false [['a']] [(1, [['a']])]).2.2 ≠ [] ↔
      2 ≤ (findLongestWordsOfWords false [['a']] [(1, [['a']])]).1) :=
  claim_C10 false [['a']] [(1, [['a']])] (by decide)
